import Mathlib

/-!
Verification of the nano-JIT demo repository.

The development shallowly embeds:
* the sort-comparator code synthesizer `createBoolCompareModule`
  (src/jit_sort.cpp) as a generator of a small basic-block IR that mirrors
  the LLVM IR the C++ code builds, together with an interpreter for that IR;
* the integer sum generator `createSumInt` (src/jit_sum.cpp) at the level of
  the single add instruction it emits;
* the engine symbol table behaviour of `NanoJit::addModule` / `NanoJit::lookup`
  (src/nano_jit.h, src/nano_jit.cpp), whose deciding code lives in external
  LLVM ORC libraries and is therefore modelled from the spec.

Machine integers are modelled as `Int` (the emitted comparisons are signed
comparisons on the loaded values, so no overflow arithmetic occurs in the
comparator); IEEE doubles appear in the comparator only as operands of the
ordered comparisons OLT/OGT, so they are modelled as either NaN or a value in
a linear order (the non-NaN doubles are totally ordered by OLT once -0 and +0
are identified, which is exactly how OLT/OGT treat them).
-/

namespace NanoJitDemo

/-! ## Schema metadata (src/jit_sort.cpp, lines 26-40) -/

/-- `enum class JITType { INT32, INT64, DOUBLE }` — the supported column
types. -/
inductive JITType
  | INT32
  | INT64
  | DOUBLE
deriving DecidableEq

/-- `struct ColumnInfo { JITType type; int offset; std::string name; }`. -/
structure ColumnInfo where
  type : JITType
  offset : Int
  name : String
deriving DecidableEq

/-- `struct SortKey { int columnIndex; bool isAscending; }`. -/
structure SortKey where
  columnIndex : Int
  isAscending : Bool
deriving DecidableEq

/-! ## Values and rows

A row is an opaque byte span; the generated code reads a typed field at a
byte offset.  We model a row by the typed loads it supports: the `int32`,
`int64` and `double` values read at each byte offset.  A double is either
NaN or a (totally ordered) non-NaN value. -/

/-- An IEEE double as seen by the ordered comparisons the generated code
uses: NaN, or a non-NaN value (the non-NaN doubles with -0 = +0 form a
linear order, embedded here as `ℚ`). -/
inductive F64
  | nan
  | val (q : ℚ)
deriving DecidableEq

/-- `FCmpOLT`: ordered less-than; false whenever an operand is NaN. -/
def folt : F64 → F64 → Bool
  | F64.val x, F64.val y => decide (x < y)
  | _, _ => false

/-- `FCmpOGT`: ordered greater-than; false whenever an operand is NaN. -/
def fogt : F64 → F64 → Bool
  | F64.val x, F64.val y => decide (x > y)
  | _, _ => false

/-- A row: the typed value loaded at each byte offset.  The caller guarantees
fields do not overlap, so the three views are independent. -/
structure Row where
  i32 : Int → Int
  i64 : Int → Int
  f64 : Int → F64

/-- The memory a generated comparator can touch: the two row buffers passed
as arguments. -/
structure Mem where
  rowA : Row
  rowB : Row

/-! ## The basic-block IR emitted by the synthesizer

`createBoolCompareModule` builds LLVM IR: basic blocks holding GEP, typed
loads, signed integer comparisons, ordered float comparisons, conditional
branches and boolean returns.  (`createSumStruct` additionally emits stores,
so the instruction type includes `store`; the comparator generator never
emits one — claim C9.)  LLVM values and block labels are anonymous in the
C++ (held in local variables); here they get structured names, one per
local variable and loop iteration. -/

/-- Block labels: `entry`, and per key `i` the blocks
`check_inv_i`, `next_i`, `ret_true_i`, `ret_false_i` (src lines 91, 103-110). -/
inductive Label
  | entry
  | checkInv (i : Nat)
  | nextKey (i : Nat)
  | retTrue (i : Nat)
  | retFalse (i : Nat)
deriving DecidableEq

/-- SSA value names: per key `i` the C++ locals `fieldPtrA`, `fieldPtrB`,
`valA`, `valB`, `condTrue`, `condFalse` (src lines 114-183). -/
inductive RegId
  | pA (i : Nat)
  | pB (i : Nat)
  | vA (i : Nat)
  | vB (i : Nat)
  | ct (i : Nat)
  | cf (i : Nat)
deriving DecidableEq

/-- An operand: one of the two pointer arguments, or an SSA register. -/
inductive Opnd
  | argA
  | argB
  | reg (r : RegId)
deriving DecidableEq

/-- Signed integer comparison predicates used by the generator
(`ICmpSLT` / `ICmpSGT`). -/
inductive IntPred
  | slt
  | sgt
deriving DecidableEq

/-- Ordered float comparison predicates used by the generator
(`FCmpOLT` / `FCmpOGT`). -/
inductive FpPred
  | olt
  | ogt
deriving DecidableEq

/-- IR instructions. -/
inductive Inst
  | gep (dst : RegId) (base : Opnd) (off : Int)
  | load (dst : RegId) (ty : JITType) (ptr : Opnd)
  | icmp (dst : RegId) (p : IntPred) (a b : Opnd)
  | fcmp (dst : RegId) (p : FpPred) (a b : Opnd)
  | store (ty : JITType) (v : Opnd) (ptr : Opnd)
deriving DecidableEq

/-- Block terminators: conditional branch, or return of a boolean constant
(`CreateCondBr` / `CreateRet(getInt1 ..)`). -/
inductive Term
  | condBr (c : Opnd) (t f : Label)
  | retBool (b : Bool)
deriving DecidableEq

/-- A basic block. -/
structure BBlock where
  name : Label
  insts : List Inst
  term : Term
deriving DecidableEq

/-- A generated function: external name plus its blocks; the first block is
the entry block. -/
structure IRFun where
  name : String
  blocks : List BBlock
deriving DecidableEq

/-! ## IR interpreter -/

/-- Runtime values: i1/i32/i64/double values and pointers into one of the
two row buffers (`isB = true` selects `rowB`). -/
inductive RtVal
  | b (v : Bool)
  | i32v (v : Int)
  | i64v (v : Int)
  | f64v (v : F64)
  | ptr (isB : Bool) (off : Int)
deriving DecidableEq

/-- The register file. -/
def Regs := RegId → Option RtVal

/-- The empty register file. -/
def emptyRegs : Regs := fun _ => none

/-- Write one register. -/
def updReg (r : Regs) (k : RegId) (v : RtVal) : Regs :=
  fun k' => if k' = k then some v else r k'

/-- Evaluate an operand: the arguments are the two row base pointers. -/
def evalOpnd (regs : Regs) : Opnd → Option RtVal
  | Opnd.argA => some (RtVal.ptr false 0)
  | Opnd.argB => some (RtVal.ptr true 0)
  | Opnd.reg r => regs r

/-- Select a row buffer. -/
def getRow (m : Mem) (isB : Bool) : Row :=
  if isB then m.rowB else m.rowA

/-- Replace a row buffer. -/
def setRow (m : Mem) (isB : Bool) (r : Row) : Mem :=
  if isB then { m with rowB := r } else { m with rowA := r }

/-- A typed load from a row at a byte offset. -/
def loadTy (r : Row) (ty : JITType) (off : Int) : RtVal :=
  match ty with
  | JITType.INT32 => RtVal.i32v (r.i32 off)
  | JITType.INT64 => RtVal.i64v (r.i64 off)
  | JITType.DOUBLE => RtVal.f64v (r.f64 off)

/-- A typed store to a row at a byte offset. -/
def storeTy (r : Row) (ty : JITType) (off : Int) (v : RtVal) : Option Row :=
  match ty, v with
  | JITType.INT32, RtVal.i32v x =>
    some { r with i32 := fun o => if o = off then x else r.i32 o }
  | JITType.INT64, RtVal.i64v x =>
    some { r with i64 := fun o => if o = off then x else r.i64 o }
  | JITType.DOUBLE, RtVal.f64v x =>
    some { r with f64 := fun o => if o = off then x else r.f64 o }
  | _, _ => none

/-- Signed integer comparison. -/
def ipredEval (p : IntPred) (x y : Int) : Bool :=
  match p with
  | IntPred.slt => decide (x < y)
  | IntPred.sgt => decide (x > y)

/-- Ordered float comparison. -/
def fpredEval (p : FpPred) (x y : F64) : Bool :=
  match p with
  | FpPred.olt => folt x y
  | FpPred.ogt => fogt x y

/-- Execute one instruction; `none` models a dynamic type/SSA error (never
reached on generator output). -/
def execInst (m : Mem) (regs : Regs) : Inst → Option (Mem × Regs)
  | Inst.gep d base o =>
    match evalOpnd regs base with
    | some (RtVal.ptr s off) => some (m, updReg regs d (RtVal.ptr s (off + o)))
    | _ => none
  | Inst.load d ty p =>
    match evalOpnd regs p with
    | some (RtVal.ptr s off) =>
      some (m, updReg regs d (loadTy (getRow m s) ty off))
    | _ => none
  | Inst.icmp d p a b =>
    match evalOpnd regs a, evalOpnd regs b with
    | some (RtVal.i32v x), some (RtVal.i32v y) =>
      some (m, updReg regs d (RtVal.b (ipredEval p x y)))
    | some (RtVal.i64v x), some (RtVal.i64v y) =>
      some (m, updReg regs d (RtVal.b (ipredEval p x y)))
    | _, _ => none
  | Inst.fcmp d p a b =>
    match evalOpnd regs a, evalOpnd regs b with
    | some (RtVal.f64v x), some (RtVal.f64v y) =>
      some (m, updReg regs d (RtVal.b (fpredEval p x y)))
    | _, _ => none
  | Inst.store ty v p =>
    match evalOpnd regs v, evalOpnd regs p with
    | some x, some (RtVal.ptr s off) =>
      match storeTy (getRow m s) ty off x with
      | some r => some (setRow m s r, regs)
      | none => none
    | _, _ => none

/-- Execute a straight-line instruction list. -/
def execInsts (m : Mem) (regs : Regs) : List Inst → Option (Mem × Regs)
  | [] => some (m, regs)
  | i :: rest =>
    match execInst m regs i with
    | some (m', regs') => execInsts m' regs' rest
    | none => none

/-- Find a block by label (first match). -/
def findBlock (blocks : List BBlock) (n : Label) : Option BBlock :=
  blocks.find? (fun b => b.name = n)

/-- Run the control-flow graph starting at block `n`, with `fuel` bounding
the number of blocks visited. -/
def runFrom (blocks : List BBlock) : Nat → Label → Mem → Regs →
    Option (Bool × Mem)
  | 0, _, _, _ => none
  | fuel + 1, n, m, regs =>
    match findBlock blocks n with
    | none => none
    | some blk =>
      match execInsts m regs blk.insts with
      | none => none
      | some (m', regs') =>
        match blk.term with
        | Term.retBool b => some (b, m')
        | Term.condBr c t f =>
          match evalOpnd regs' c with
          | some (RtVal.b true) => runFrom blocks fuel t m' regs'
          | some (RtVal.b false) => runFrom blocks fuel f m' regs'
          | _ => none

/-- Run a generated function on two rows: enter at the first block with an
empty register file. -/
def runFunction (f : IRFun) (a b : Row) (fuel : Nat) : Option (Bool × Mem) :=
  match f.blocks.head? with
  | none => none
  | some blk => runFrom f.blocks fuel blk.name ⟨a, b⟩ emptyRegs

/-- The boolean a generated comparator returns (discarding the final
memory). -/
def runCompare (f : IRFun) (a b : Row) (fuel : Nat) : Option Bool :=
  (runFunction f a b fuel).map Prod.fst

/-! ## Function name generation (src/jit_sort.cpp, lines 70-76)

The C++ builds the name with `std::to_string(int)`, which prints the decimal
representation with a leading `-` for negative values; `natRepr`/`intRepr`
reproduce it (with explicit fuel so that everything reduces in the kernel). -/

/-- The decimal digit character for `n < 10`. -/
def digitChar (n : Nat) : Char := Char.ofNat (48 + n)

/-- Decimal digits of `n`, most significant first (fuelled helper). -/
def natDigitsAux : Nat → Nat → List Char
  | 0, _ => []
  | fuel + 1, n =>
    if n < 10 then [digitChar n]
    else natDigitsAux fuel (n / 10) ++ [digitChar (n % 10)]

/-- Decimal digits of `n`, most significant first. -/
def natDigits (n : Nat) : List Char := natDigitsAux (n + 1) n

/-- Decimal representation of a natural number. -/
def natRepr (n : Nat) : String := String.mk (natDigits n)

/-- `std::to_string` on a C++ `int`: decimal, `-`-signed. -/
def intRepr (i : Int) : String :=
  if i < 0 then "-" ++ natRepr (-i).toNat else natRepr i.toNat

/-- The name fragment one key contributes:
`"_" + std::to_string(k.columnIndex) + (k.isAscending ? "a" : "d")`. -/
def encodeKey (k : SortKey) : String :=
  "_" ++ intRepr k.columnIndex ++ (if k.isAscending then "a" else "d")

/-- The generated comparator name: `"cmp"` followed by each key's fragment
(src lines 72-76). -/
def funcName (keys : List SortKey) : String :=
  keys.foldl (fun s k => s ++ encodeKey k) "cmp"

/-- The direction suffix of a key: `a` for ascending, `d` for descending. -/
def dirChar (k : SortKey) : Char := if k.isAscending then 'a' else 'd'

/-- A key's name fragment as a character list. -/
def keyChars (k : SortKey) : List Char :=
  '_' :: (intRepr k.columnIndex).data ++ [dirChar k]

/-- Numeric value of a decimal digit character. -/
def digitVal (c : Char) : Nat := c.toNat - 48

/-- Value of a most-significant-first decimal digit string. -/
def listVal (l : List Char) : Nat :=
  l.foldl (fun a c => 10 * a + digitVal c) 0

/-! ## The comparator generator (src/jit_sort.cpp, lines 56-207) -/

/-- The C++ reads `schema[key.columnIndex]` with no bounds check
(`std::vector::operator[]`, undefined behaviour out of range); the embedding
returns `none` exactly where the C++ access is undefined. -/
def schemaGet (schema : List ColumnInfo) (idx : Int) : Option ColumnInfo :=
  if idx < 0 then none else schema.get? idx.toNat

/-- The `condTrue` comparison of key `i` (src lines 139-158): OLT/OGT for
DOUBLE, SLT/SGT otherwise, on `(valA, valB)`, ascending picking the
less-than predicate. -/
def keyCmpTrue (i : Nat) (ci : ColumnInfo) (k : SortKey) : Inst :=
  match ci.type with
  | JITType.DOUBLE =>
    Inst.fcmp (RegId.ct i) (if k.isAscending then FpPred.olt else FpPred.ogt)
      (Opnd.reg (RegId.vA i)) (Opnd.reg (RegId.vB i))
  | _ =>
    Inst.icmp (RegId.ct i) (if k.isAscending then IntPred.slt else IntPred.sgt)
      (Opnd.reg (RegId.vA i)) (Opnd.reg (RegId.vB i))

/-- The `condFalse` comparison of key `i` (src lines 166-183): the same
predicate with the operands swapped to `(valB, valA)`. -/
def keyCmpFalse (i : Nat) (ci : ColumnInfo) (k : SortKey) : Inst :=
  match ci.type with
  | JITType.DOUBLE =>
    Inst.fcmp (RegId.cf i) (if k.isAscending then FpPred.olt else FpPred.ogt)
      (Opnd.reg (RegId.vB i)) (Opnd.reg (RegId.vA i))
  | _ =>
    Inst.icmp (RegId.cf i) (if k.isAscending then IntPred.slt else IntPred.sgt)
      (Opnd.reg (RegId.vB i)) (Opnd.reg (RegId.vA i))

/-- The block that handles key `i`'s loads and `condTrue` test: two GEPs at
the column offset, two typed loads, the comparison, then
`CondBr(condTrue, ret_true_i, check_inv_i)` (src lines 112-161).  It lives
under the label `cur` — `entry` for the first key, `next_(i-1)` otherwise. -/
def keyHeadBlock (cur : Label) (i : Nat) (ci : ColumnInfo) (k : SortKey) :
    BBlock :=
  ⟨cur,
    [Inst.gep (RegId.pA i) Opnd.argA ci.offset,
     Inst.gep (RegId.pB i) Opnd.argB ci.offset,
     Inst.load (RegId.vA i) ci.type (Opnd.reg (RegId.pA i)),
     Inst.load (RegId.vB i) ci.type (Opnd.reg (RegId.pB i)),
     keyCmpTrue i ci k],
    Term.condBr (Opnd.reg (RegId.ct i)) (Label.retTrue i) (Label.checkInv i)⟩

/-- Key `i`'s `check_inv_i` block: the mirrored comparison, then
`CondBr(condFalse, ret_false_i, next_i)` (src lines 166-187). -/
def keyInvBlock (i : Nat) (ci : ColumnInfo) (k : SortKey) : BBlock :=
  ⟨Label.checkInv i, [keyCmpFalse i ci k],
    Term.condBr (Opnd.reg (RegId.cf i)) (Label.retFalse i) (Label.nextKey i)⟩

/-- The block list of the generated function: per key the head block, the
inverse-check block and the two constant-return blocks, and after the last
key a block returning `false` (src lines 97-203; the relative order of
non-entry blocks in the list is immaterial, branches go by label).  `none`
marks the undefined out-of-range `schema[key.columnIndex]` access. -/
def genBlocks (schema : List ColumnInfo) :
    List SortKey → Nat → Label → Option (List BBlock)
  | [], _, cur => some [⟨cur, [], Term.retBool false⟩]
  | k :: rest, i, cur =>
    match schemaGet schema k.columnIndex with
    | none => none
    | some ci =>
      match genBlocks schema rest (i + 1) (Label.nextKey i) with
      | none => none
      | some bs =>
        some (keyHeadBlock cur i ci k :: keyInvBlock i ci k ::
          ⟨Label.retTrue i, [], Term.retBool true⟩ ::
          ⟨Label.retFalse i, [], Term.retBool false⟩ :: bs)

/-- `createBoolCompareModule`: the generated comparator function — its name
from the keys, its blocks from the comparison cascade (src lines 56-207). -/
def createBoolCompareModule (schema : List ColumnInfo)
    (keys : List SortKey) : Option IRFun :=
  match genBlocks schema keys 0 Label.entry with
  | none => none
  | some bs => some ⟨funcName keys, bs⟩

/-- All keys name in-range columns (every `JITType` value is supported, so
type validity is automatic). -/
def keysValid (schema : List ColumnInfo) (keys : List SortKey) : Bool :=
  keys.all (fun k => (schemaGet schema k.columnIndex).isSome)

/-! ## The spec-side comparator

`specKeyPrecedes` and `specCompare` follow the spec's words (§4.1): for key
*i* in order, load both rows' fields at `byteOffset` typed per column; if
"strictly precedes" holds return true; else if the mirrored test holds
return false; else fall through; after all keys return false.  The
per-type/direction table: integer ascending A<B, integer descending A>B,
float ascending A `<_ord` B, float descending A `>_ord` B. -/

/-- "Row `a` strictly precedes row `b` on this key", per the spec's table. -/
def specKeyPrecedes (ci : ColumnInfo) (k : SortKey) (a b : Row) : Bool :=
  match ci.type with
  | JITType.INT32 =>
    if k.isAscending then decide (a.i32 ci.offset < b.i32 ci.offset)
    else decide (a.i32 ci.offset > b.i32 ci.offset)
  | JITType.INT64 =>
    if k.isAscending then decide (a.i64 ci.offset < b.i64 ci.offset)
    else decide (a.i64 ci.offset > b.i64 ci.offset)
  | JITType.DOUBLE =>
    if k.isAscending then folt (a.f64 ci.offset) (b.f64 ci.offset)
    else fogt (a.f64 ci.offset) (b.f64 ci.offset)

/-- The spec's comparison cascade ("strictly follows" is the mirrored test
`specKeyPrecedes ci k b a`). -/
def specCompare (schema : List ColumnInfo) :
    List SortKey → Row → Row → Bool
  | [], _, _ => false
  | k :: ks, a, b =>
    match schemaGet schema k.columnIndex with
    | none => false
    | some ci =>
      if specKeyPrecedes ci k a b then true
      else if specKeyPrecedes ci k b a then false
      else specCompare schema ks a b

/-- The register file after key `i`'s head block runs: the two field
pointers, the two loaded values, and `condTrue`. -/
def headRegs (regs : Regs) (m : Mem) (i : Nat) (ci : ColumnInfo)
    (k : SortKey) : Regs :=
  updReg
    (updReg
      (updReg
        (updReg (updReg regs (RegId.pA i) (RtVal.ptr false (0 + ci.offset)))
          (RegId.pB i) (RtVal.ptr true (0 + ci.offset)))
        (RegId.vA i) (loadTy m.rowA ci.type (0 + ci.offset)))
      (RegId.vB i) (loadTy m.rowB ci.type (0 + ci.offset)))
    (RegId.ct i) (RtVal.b (specKeyPrecedes ci k m.rowA m.rowB))

/-- Labels a call `genBlocks schema keys i cur` may give to its non-`cur`
blocks: any per-key label with index at least `i`. -/
def genLabel (i : Nat) : Label → Prop
  | Label.entry => False
  | Label.checkInv j => i ≤ j
  | Label.nextKey j => i ≤ j
  | Label.retTrue j => i ≤ j
  | Label.retFalse j => i ≤ j

/-- The label under which key `i`'s head block is emitted: `entry` for the
first key, or a `next_j` block of an earlier key. -/
def labelIdxLt : Label → Nat → Prop
  | Label.entry, _ => True
  | Label.nextKey j, i => j < i
  | _, _ => False

/-! ## The integer sum generator (src/jit_sum.cpp, lines 24-48) -/

/-- Reinterpret an integer as a 32-bit two's-complement value (the effect of
an i32 `add` on in-range operands is plain addition followed by this wrap). -/
def wrap32 (x : Int) : Int := (x + 2 ^ 31) % 2 ^ 32 - 2 ^ 31

/-- The function emitted by `createSumInt`: a single
`CreateAdd(arg0, arg1)` on `i32` returned directly (src/jit_sum.cpp lines
41-44), i.e. 32-bit two's-complement addition of the two arguments. -/
def sum_int (a b : Int) : Int := wrap32 (a + b)

/-! ## The sorting routine (spec-modelled)

The demo sorts row pointers with `std::sort(rowPtrs.begin(), rowPtrs.end(),
compareFn)` (src/jit_sort.cpp line 281); the sorting algorithm itself is
external library code, not part of this repository. -/

/-- Modelled from the spec: insertion step of a comparison sort using the
generated strict `lt` comparator (the sorting routine `std::sort` is
external to the repository; §8 specifies only the comparator-driven
ordering of its output). -/
def insertRow (lt : Row → Row → Bool) (x : Row) : List Row → List Row
  | [] => [x]
  | y :: ys => if lt y x then y :: insertRow lt x ys else x :: y :: ys

/-- Modelled from the spec: sorting a row sequence with the generated
comparator (see `insertRow`). -/
def sortRows (lt : Row → Row → Bool) : List Row → List Row
  | [] => []
  | x :: xs => insertRow lt x (sortRows lt xs)

/-- "Non-decreasing under the key order": no element strictly precedes its
immediate predecessor. -/
def nonDecr (lt : Row → Row → Bool) (l : List Row) : Prop :=
  l.Chain' (fun x y => lt y x = false)

/-! ## The engine symbol table (spec-modelled)

`NanoJit::addModule` hands the module to LLVM's CompileOnDemandLayer and
`NanoJit::lookup` queries LLVM's ExecutionSession
(src/nano_jit.cpp lines 119-127, src/nano_jit.h lines 113-127); the symbol
table itself lives in external LLVM ORC code.  Per the spec (§4.2, §7):
ingestion makes a unit's function names resolvable and fails on duplicate
names; lookup falls back to the host process's exported symbols and fails
with a lookup error on unregistered names. -/

/-- Modelled from the spec: `ingestModule` — registers a unit's function
names, rejecting duplicate symbol names. -/
def addModule (table : List String) (names : List String) :
    Option (List String) :=
  if ∃ n ∈ names, n ∈ table then none
  else some (table ++ names)

/-- Modelled from the spec: ingesting a sequence of units in order; a failed
unit aborts the sequence. -/
def ingestAll (table : List String) : List (List String) →
    Option (List String)
  | [] => some table
  | u :: us =>
    match addModule table u with
    | none => none
    | some table' => ingestAll table' us

/-- Modelled from the spec: `resolveSymbol`/`lookup` — resolves a name
against the engine's table, then against the host process's exported
symbols, and otherwise fails with a lookup error (`NanoJit::lookup` throws
`"JIT lookup failed for symbol ..."`, src/nano_jit.h lines 119-123). -/
def lookup (table hostSyms : List String) (name : String) :
    Except String Unit :=
  if name ∈ table then Except.ok ()
  else if name ∈ hostSyms then Except.ok ()
  else Except.error ("JIT lookup failed for symbol " ++ name)

/-! ## Concrete demo inputs (src/jit_sort.cpp, lines 220-268) -/

/-- The demo schema: `[Int32 "id" at offset 0, Double "score" at offset 4]`. -/
def demoSchema : List ColumnInfo :=
  [⟨JITType.INT32, 0, "id"⟩, ⟨JITType.DOUBLE, 4, "score"⟩]

/-- The demo keys: id ascending, score descending. -/
def demoKeys : List SortKey := [⟨0, true⟩, ⟨1, false⟩]

/-- A demo row holding `id` at offset 0 and `score` at offset 4. -/
def rowOf (id : Int) (s : F64) : Row :=
  ⟨fun o => if o = 0 then id else 0, fun _ => 0,
    fun o => if o = 4 then s else F64.nan⟩

/-- The comparator the demo generates for `demoSchema`/`demoKeys`. -/
def demoF : IRFun :=
  (createBoolCompareModule demoSchema demoKeys).getD ⟨"", []⟩

/-- A one-key list (score descending) for exercising the NaN behaviour. -/
def c3keys : List SortKey := [⟨1, false⟩]

/-- The comparator generated for `c3keys`. -/
def c3f : IRFun := (createBoolCompareModule demoSchema c3keys).getD ⟨"", []⟩

/-- The comparator generated for the empty key list. -/
def c3g : IRFun := (createBoolCompareModule demoSchema []).getD ⟨"", []⟩

/-- A single-column schema used to exhibit the missing bounds check. -/
def c5schema : List ColumnInfo := [⟨JITType.INT32, 0, "id"⟩]

/-- A key list whose only key names column 1, out of range for `c5schema`. -/
def c5keys : List SortKey := [⟨1, true⟩]

/-! ## Order-theoretic lemmas about the key comparisons -/

lemma folt_asymm {x y : F64} (h : folt x y = true) : folt y x = false := by
  cases x <;> cases y <;> simp [folt] at h ⊢
  exact le_of_lt h

lemma fogt_asymm {x y : F64} (h : fogt x y = true) : fogt y x = false := by
  cases x <;> cases y <;> simp [fogt] at h ⊢
  exact le_of_lt h

lemma folt_irrefl (x : F64) : folt x x = false := by
  cases x <;> simp [folt]

lemma fogt_irrefl (x : F64) : fogt x x = false := by
  cases x <;> simp [fogt]

lemma specKeyPrecedes_asymm {ci : ColumnInfo} {k : SortKey} {a b : Row}
    (h : specKeyPrecedes ci k a b = true) :
    specKeyPrecedes ci k b a = false := by
  cases hty : ci.type <;> cases hasc : k.isAscending <;>
    rw [specKeyPrecedes, hty, hasc] at h ⊢ <;>
    simp only [if_true, if_false] at h ⊢ <;>
    first
      | (simp at h ⊢; omega)
      | exact folt_asymm h
      | exact fogt_asymm h

lemma specKeyPrecedes_irrefl (ci : ColumnInfo) (k : SortKey) (a : Row) :
    specKeyPrecedes ci k a a = false := by
  cases hty : ci.type <;> cases hasc : k.isAscending <;>
    rw [specKeyPrecedes, hty, hasc] <;>
    simp [folt_irrefl, fogt_irrefl]

/-- Antisymmetry of the spec cascade: `compare(a,b)` and `compare(b,a)` are
never both true. -/
lemma specCompare_asymm (schema : List ColumnInfo) :
    ∀ (keys : List SortKey) (a b : Row),
      specCompare schema keys a b = true →
      specCompare schema keys b a = false := by
  intro keys
  induction keys with
  | nil => intro a b h; simp [specCompare] at h
  | cons k ks ih =>
    intro a b h
    cases hsg : schemaGet schema k.columnIndex with
    | none => simp [specCompare, hsg] at h
    | some ci =>
      cases hp : specKeyPrecedes ci k a b with
      | true =>
        have hq := specKeyPrecedes_asymm hp
        simp [specCompare, hsg, hp, hq]
      | false =>
        cases hq : specKeyPrecedes ci k b a with
        | true => simp [specCompare, hsg, hp, hq] at h
        | false =>
          simp only [specCompare, hsg] at h ⊢
          simp [hp, hq] at h ⊢
          exact ih a b h

/-- Irreflexivity of the spec cascade: `compare(a,a)` is always false. -/
lemma specCompare_irrefl (schema : List ColumnInfo) :
    ∀ (keys : List SortKey) (a : Row),
      specCompare schema keys a a = false := by
  intro keys
  induction keys with
  | nil => intro a; simp [specCompare]
  | cons k ks ih =>
    intro a
    rw [specCompare]
    cases hsg : schemaGet schema k.columnIndex with
    | none => simp
    | some ci => simp [specKeyPrecedes_irrefl, ih a]

lemma folt_nan_left (y : F64) : folt F64.nan y = false := by
  cases y <;> simp [folt]

lemma folt_nan_right (x : F64) : folt x F64.nan = false := by
  cases x <;> simp [folt]

lemma fogt_nan_left (y : F64) : fogt F64.nan y = false := by
  cases y <;> simp [fogt]

lemma fogt_nan_right (x : F64) : fogt x F64.nan = false := by
  cases x <;> simp [fogt]

/-- A NaN on either side makes both ordered tests of a float key false. -/
lemma specKeyPrecedes_nan {ci : ColumnInfo} {k : SortKey} {a b : Row}
    (hty : ci.type = JITType.DOUBLE)
    (h : a.f64 ci.offset = F64.nan ∨ b.f64 ci.offset = F64.nan) :
    specKeyPrecedes ci k a b = false ∧ specKeyPrecedes ci k b a = false := by
  refine ⟨?_, ?_⟩ <;>
    (rw [specKeyPrecedes, hty]
     rcases h with h | h <;> rw [h] <;> cases hasc : k.isAscending <;>
       simp [folt_nan_left, folt_nan_right, fogt_nan_left, fogt_nan_right])

/-- A NaN float key is tied, and the cascade falls through to the next key. -/
lemma specCompare_nan_fallthrough {schema : List ColumnInfo}
    {ci : ColumnInfo} {k : SortKey} {a b : Row} (ks : List SortKey)
    (hsg : schemaGet schema k.columnIndex = some ci)
    (hty : ci.type = JITType.DOUBLE)
    (h : a.f64 ci.offset = F64.nan ∨ b.f64 ci.offset = F64.nan) :
    specCompare schema (k :: ks) a b = specCompare schema ks a b := by
  obtain ⟨h1, h2⟩ := specKeyPrecedes_nan (k := k) hty h
  simp [specCompare, hsg, h1, h2]

/-! ## Bridging the generated control flow and the spec cascade -/

lemma genLabel_mono {i j : Nat} (hij : i ≤ j) {n : Label}
    (h : genLabel j n) : genLabel i n := by
  cases n <;> simp [genLabel] at h ⊢ <;> omega

/-- Every block emitted by `genBlocks schema keys i cur` is the block named
`cur` or carries a per-key label with index at least `i`. -/
lemma genBlocks_names (schema : List ColumnInfo) :
    ∀ (keys : List SortKey) (i : Nat) (cur : Label) (bs : List BBlock),
      genBlocks schema keys i cur = some bs →
      ∀ b ∈ bs, b.name = cur ∨ genLabel i b.name := by
  intro keys
  induction keys with
  | nil =>
    intro i cur bs hg b hb
    simp only [genBlocks] at hg
    injection hg with hg
    rw [← hg] at hb
    simp at hb
    rw [hb]
    left
    rfl
  | cons k rest ih =>
    intro i cur bs hg b hb
    simp only [genBlocks] at hg
    split at hg
    · cases hg
    · rename_i ci hsg
      split at hg
      · cases hg
      · rename_i bs' hgen
        injection hg with hg
        rw [← hg] at hb
        simp only [List.mem_cons] at hb
        rcases hb with hb | hb | hb | hb | hb
        · left; rw [hb]; rfl
        · right; rw [hb]; simp [keyInvBlock, genLabel]
        · right; rw [hb]; simp [genLabel]
        · right; rw [hb]; simp [genLabel]
        · rcases ih (i + 1) (Label.nextKey i) bs' hgen b hb with h | h
          · right; rw [h]; simp [genLabel]
          · right; exact genLabel_mono (Nat.le_succ i) h

/-- A label coming from the tail of the generation is distinct from the four
blocks emitted for key `i` and from the current block's label. -/
lemma restName_ne {i : Nat} {cur : Label} (hcur : labelIdxLt cur i)
    {n : Label} (hn : n = Label.nextKey i ∨ genLabel (i + 1) n) :
    n ≠ cur ∧ n ≠ Label.checkInv i ∧ n ≠ Label.retTrue i ∧
      n ≠ Label.retFalse i := by
  rcases hn with h | h
  · subst h
    refine ⟨?_, by simp, by simp, by simp⟩
    cases cur <;> simp [labelIdxLt] at hcur ⊢
    omega
  · cases n <;> simp [genLabel] at h <;>
      refine ⟨?_, by simp <;> omega, by simp <;> omega, by simp <;> omega⟩ <;>
      cases cur <;> simp [labelIdxLt] at hcur ⊢ <;> omega

lemma findBlock_cons_self (b : BBlock) (l : List BBlock) :
    findBlock (b :: l) b.name = some b := by
  simp [findBlock, List.find?_cons_of_pos]

lemma findBlock_cons_ne (b : BBlock) (l : List BBlock) {n : Label}
    (h : n ≠ b.name) : findBlock (b :: l) n = findBlock l n := by
  unfold findBlock
  rw [List.find?_cons_of_neg]
  simp
  exact fun hc => absurd hc.symm h

lemma findBlock_mem {l : List BBlock} {n : Label} {b : BBlock}
    (h : findBlock l n = some b) : b ∈ l ∧ b.name = n := by
  refine ⟨List.mem_of_find?_eq_some h, ?_⟩
  have := List.find?_some h
  simpa using this

/-- Executing key `i`'s head block: memory is untouched and the registers
end up as `headRegs` — in particular `condTrue` holds exactly the spec's
"strictly precedes" value. -/
lemma execInsts_keyHead (cur : Label) (m : Mem) (regs : Regs) (i : Nat)
    (ci : ColumnInfo) (k : SortKey) :
    execInsts m regs (keyHeadBlock cur i ci k).insts =
      some (m, headRegs regs m i ci k) := by
  cases hty : ci.type <;> cases hasc : k.isAscending <;>
    simp [keyHeadBlock, keyCmpTrue, headRegs, execInsts, execInst, evalOpnd,
      updReg, loadTy, getRow, specKeyPrecedes, ipredEval, fpredEval, hty,
      hasc]

lemma headRegs_ct (regs : Regs) (m : Mem) (i : Nat) (ci : ColumnInfo)
    (k : SortKey) :
    headRegs regs m i ci k (RegId.ct i) =
      some (RtVal.b (specKeyPrecedes ci k m.rowA m.rowB)) := by
  simp [headRegs, updReg]

lemma headRegs_vA (regs : Regs) (m : Mem) (i : Nat) (ci : ColumnInfo)
    (k : SortKey) :
    headRegs regs m i ci k (RegId.vA i) =
      some (loadTy m.rowA ci.type (0 + ci.offset)) := by
  simp [headRegs, updReg]

lemma headRegs_vB (regs : Regs) (m : Mem) (i : Nat) (ci : ColumnInfo)
    (k : SortKey) :
    headRegs regs m i ci k (RegId.vB i) =
      some (loadTy m.rowB ci.type (0 + ci.offset)) := by
  simp [headRegs, updReg]

/-- Executing key `i`'s `check_inv_i` block: memory is untouched and
`condFalse` receives the spec's mirrored "strictly follows" value. -/
lemma execInsts_keyInv (m : Mem) (regs : Regs) (i : Nat) (ci : ColumnInfo)
    (k : SortKey)
    (hA : regs (RegId.vA i) = some (loadTy m.rowA ci.type (0 + ci.offset)))
    (hB : regs (RegId.vB i) = some (loadTy m.rowB ci.type (0 + ci.offset))) :
    execInsts m regs (keyInvBlock i ci k).insts =
      some (m, updReg regs (RegId.cf i)
        (RtVal.b (specKeyPrecedes ci k m.rowB m.rowA))) := by
  cases hty : ci.type <;> cases hasc : k.isAscending <;>
    rw [hty] at hA hB <;>
    simp [keyInvBlock, keyCmpFalse, execInsts, execInst, evalOpnd, updReg,
      loadTy, hA, hB, specKeyPrecedes, ipredEval, fpredEval, hty, hasc]

/-- One interpreter step ending in a constant boolean return. -/
lemma runFrom_ret {blocks : List BBlock} {n : Label} {m m' : Mem}
    {regs regs' : Regs} {blk : BBlock} {b : Bool} (fuel : Nat)
    (hf : findBlock blocks n = some blk)
    (hexec : execInsts m regs blk.insts = some (m', regs'))
    (hterm : blk.term = Term.retBool b) :
    runFrom blocks (fuel + 1) n m regs = some (b, m') := by
  simp [runFrom, hf, hexec, hterm]

/-- One interpreter step through a conditional branch. -/
lemma runFrom_br {blocks : List BBlock} {n : Label} {m m' : Mem}
    {regs regs' : Regs} {blk : BBlock} {c : Opnd} {t f : Label} {v : Bool}
    (fuel : Nat)
    (hf : findBlock blocks n = some blk)
    (hexec : execInsts m regs blk.insts = some (m', regs'))
    (hterm : blk.term = Term.condBr c t f)
    (hc : evalOpnd regs' c = some (RtVal.b v)) :
    runFrom blocks (fuel + 1) n m regs =
      runFrom blocks fuel (if v then t else f) m' regs' := by
  cases v <;> simp [runFrom, hf, hexec, hterm, hc]

lemma updReg_self (r : Regs) (k : RegId) (v : RtVal) :
    updReg r k v k = some v := by
  simp [updReg]

lemma ifTrueBranch {α : Sort _} (t f : α) : (if true = true then t else f) = t :=
  rfl

lemma ifFalseBranch {α : Sort _} (t f : α) :
    (if false = true then t else f) = f := rfl

/-- Main bridge: running the generated control-flow graph from the current
block computes the spec cascade over the remaining keys and leaves memory
untouched, for any starting register file.  `blocks` is any block list in
which the generated blocks are found (instantiated with the whole generated
function). -/
lemma runFrom_genBlocks (schema : List ColumnInfo) (blocks : List BBlock) :
    ∀ (keys : List SortKey) (i : Nat) (cur : Label) (bs : List BBlock)
      (m : Mem) (regs : Regs),
      genBlocks schema keys i cur = some bs →
      labelIdxLt cur i →
      (∀ n b, findBlock bs n = some b → findBlock blocks n = some b) →
      runFrom blocks (2 * keys.length + 1) cur m regs =
        some (specCompare schema keys m.rowA m.rowB, m) := by
  intro keys
  induction keys with
  | nil =>
    intro i cur bs m regs hg hcur hfind
    simp only [genBlocks] at hg
    injection hg with hg
    have hf : findBlock blocks cur =
        some ⟨cur, [], Term.retBool false⟩ := by
      apply hfind
      rw [← hg]
      exact findBlock_cons_self ⟨cur, [], Term.retBool false⟩ []
    simp [runFrom, hf, execInsts, specCompare]
  | cons k rest ih =>
    intro i cur bs m regs hg hcur hfind
    simp only [genBlocks] at hg
    split at hg
    · cases hg
    · rename_i ci hsg
      split at hg
      · cases hg
      · rename_i bs' hgen
        injection hg with hg
        -- the four blocks emitted for this key
        have hfH : findBlock blocks cur =
            some (keyHeadBlock cur i ci k) := by
          apply hfind
          rw [← hg]
          exact findBlock_cons_self (keyHeadBlock cur i ci k) _
        have hcurH : ∀ j, labelIdxLt cur j → cur ≠ Label.checkInv i ∧
            cur ≠ Label.retTrue i ∧ cur ≠ Label.retFalse i := by
          intro j hj
          cases cur <;> simp [labelIdxLt] at hj ⊢
        obtain ⟨hne1, hne2, hne3⟩ := hcurH i hcur
        have hfInv : findBlock blocks (Label.checkInv i) =
            some (keyInvBlock i ci k) := by
          apply hfind
          rw [← hg]
          rw [findBlock_cons_ne _ _ (fun hc => hne1 hc.symm)]
          exact findBlock_cons_self (keyInvBlock i ci k) _
        have hfT : findBlock blocks (Label.retTrue i) =
            some ⟨Label.retTrue i, [], Term.retBool true⟩ := by
          apply hfind
          rw [← hg]
          rw [findBlock_cons_ne _ _ (fun hc => hne2 hc.symm)]
          rw [findBlock_cons_ne _ _ (by simp [keyInvBlock])]
          exact findBlock_cons_self ⟨Label.retTrue i, [], Term.retBool true⟩ _
        have hfF : findBlock blocks (Label.retFalse i) =
            some ⟨Label.retFalse i, [], Term.retBool false⟩ := by
          apply hfind
          rw [← hg]
          rw [findBlock_cons_ne _ _ (fun hc => hne3 hc.symm)]
          rw [findBlock_cons_ne _ _ (by simp [keyInvBlock])]
          rw [findBlock_cons_ne _ _ (by simp)]
          exact findBlock_cons_self ⟨Label.retFalse i, [], Term.retBool false⟩ _
        -- find-compatibility for the tail of the generation
        have hfind' : ∀ n b, findBlock bs' n = some b →
            findBlock blocks n = some b := by
          intro n b h
          obtain ⟨hmem, hname⟩ := findBlock_mem h
          have hnames :=
            genBlocks_names schema rest (i + 1) (Label.nextKey i) bs' hgen
              b hmem
          rw [hname] at hnames
          obtain ⟨hd1, hd2, hd3, hd4⟩ := restName_ne hcur hnames
          apply hfind
          rw [← hg]
          rw [findBlock_cons_ne _ _ hd1]
          rw [findBlock_cons_ne _ _ (by simpa [keyInvBlock] using hd2)]
          rw [findBlock_cons_ne _ _ (by simpa using hd3)]
          rw [findBlock_cons_ne _ _ (by simpa using hd4)]
          exact h
        -- run the head block
        have hlen : 2 * (k :: rest).length + 1 =
            (2 * rest.length + 1 + 1) + 1 := by
          simp [List.length_cons]
          ring
        rw [hlen]
        rw [runFrom_br (2 * rest.length + 1 + 1) hfH
          (execInsts_keyHead cur m regs i ci k) rfl
          (by rw [evalOpnd]; exact headRegs_ct regs m i ci k)]
        cases hp : specKeyPrecedes ci k m.rowA m.rowB with
        | true =>
          -- strictly precedes: branch to ret_true_i
          rw [ifTrueBranch]
          rw [runFrom_ret (2 * rest.length + 1) hfT rfl rfl]
          simp [specCompare, hsg, hp]
        | false =>
          -- run check_inv_i
          rw [ifFalseBranch]
          rw [runFrom_br (2 * rest.length + 1) hfInv
            (execInsts_keyInv m _ i ci k (headRegs_vA regs m i ci k)
              (headRegs_vB regs m i ci k)) rfl
            (by rw [evalOpnd]; exact updReg_self _ _ _)]
          cases hq : specKeyPrecedes ci k m.rowB m.rowA with
          | true =>
            -- strictly follows: branch to ret_false_i
            rw [ifTrueBranch]
            rw [runFrom_ret (2 * rest.length) hfF rfl rfl]
            simp [specCompare, hsg, hp, hq]
          | false =>
            -- tied on this key: fall through to the next key
            rw [ifFalseBranch]
            rw [ih (i + 1) (Label.nextKey i) bs' m _ hgen (by
              simp [labelIdxLt]) hfind']
            simp [specCompare, hsg, hp, hq]

/-- The first generated block carries the label passed in. -/
lemma genBlocks_head (schema : List ColumnInfo) (keys : List SortKey)
    (i : Nat) (cur : Label) (bs : List BBlock)
    (hg : genBlocks schema keys i cur = some bs) :
    ∃ blk rest, bs = blk :: rest ∧ blk.name = cur := by
  cases keys with
  | nil =>
    simp only [genBlocks] at hg
    injection hg with hg
    exact ⟨_, _, hg.symm, rfl⟩
  | cons k ks =>
    simp only [genBlocks] at hg
    split at hg
    · cases hg
    · split at hg
      · cases hg
      · injection hg with hg
        exact ⟨_, _, hg.symm, rfl⟩

/-- Running a generated comparator computes the spec cascade and returns
both row buffers unchanged. -/
lemma create_run {schema : List ColumnInfo} {keys : List SortKey} {f : IRFun}
    (h : createBoolCompareModule schema keys = some f) (a b : Row) :
    runFunction f a b (2 * keys.length + 1) =
      some (specCompare schema keys a b, ⟨a, b⟩) := by
  unfold createBoolCompareModule at h
  cases hg : genBlocks schema keys 0 Label.entry with
  | none => rw [hg] at h; cases h
  | some bs =>
    rw [hg] at h
    injection h with h
    obtain ⟨blk, rest, hbs, hname⟩ := genBlocks_head schema keys 0 Label.entry
      bs hg
    have hrun := runFrom_genBlocks schema bs keys 0 Label.entry bs
      ⟨a, b⟩ emptyRegs hg (by simp [labelIdxLt]) (fun n b h => h)
    rw [← h]
    unfold runFunction
    simp only [hbs, List.head?]
    rw [hname, ← hbs]
    exact hrun

/-- The result of a generated comparator, as a boolean. -/
lemma create_runCompare {schema : List ColumnInfo} {keys : List SortKey}
    {f : IRFun} (h : createBoolCompareModule schema keys = some f)
    (a b : Row) :
    runCompare f a b (2 * keys.length + 1) =
      some (specCompare schema keys a b) := by
  unfold runCompare
  rw [create_run h a b]
  rfl

/-- Generation succeeds exactly on valid key lists. -/
lemma keysValid_gen (schema : List ColumnInfo) :
    ∀ (keys : List SortKey) (i : Nat) (cur : Label),
      keysValid schema keys = true →
      ∃ bs, genBlocks schema keys i cur = some bs := by
  intro keys
  induction keys with
  | nil => intro i cur _; exact ⟨_, rfl⟩
  | cons k rest ih =>
    intro i cur hv
    simp only [keysValid, List.all_cons, Bool.and_eq_true] at hv
    obtain ⟨hk, hrest⟩ := hv
    cases hsg : schemaGet schema k.columnIndex with
    | none => rw [hsg] at hk; cases hk
    | some ci =>
      obtain ⟨bs, hbs⟩ := ih (i + 1) (Label.nextKey i) hrest
      refine ⟨keyHeadBlock cur i ci k :: keyInvBlock i ci k ::
        ⟨Label.retTrue i, [], Term.retBool true⟩ ::
        ⟨Label.retFalse i, [], Term.retBool false⟩ :: bs, ?_⟩
      simp only [genBlocks, hsg, hbs]

/-- A valid key list always yields a generated comparator. -/
lemma keysValid_create {schema : List ColumnInfo} {keys : List SortKey}
    (hv : keysValid schema keys = true) :
    ∃ f, createBoolCompareModule schema keys = some f := by
  obtain ⟨bs, hbs⟩ := keysValid_gen schema keys 0 Label.entry hv
  exact ⟨⟨funcName keys, bs⟩, by simp only [createBoolCompareModule, hbs]⟩

/-- The generated blocks contain no store instruction. -/
lemma genBlocks_no_store (schema : List ColumnInfo) :
    ∀ (keys : List SortKey) (i : Nat) (cur : Label) (bs : List BBlock),
      genBlocks schema keys i cur = some bs →
      ∀ b ∈ bs, ∀ ins ∈ b.insts, ∀ ty v p, ins ≠ Inst.store ty v p := by
  intro keys
  induction keys with
  | nil =>
    intro i cur bs hg b hb ins hins ty v p
    simp only [genBlocks] at hg
    injection hg with hg
    rw [← hg] at hb
    simp at hb
    rw [hb] at hins
    simp at hins
  | cons k rest ih =>
    intro i cur bs hg b hb ins hins ty v p
    simp only [genBlocks] at hg
    split at hg
    · cases hg
    · rename_i ci hsg
      split at hg
      · cases hg
      · rename_i bs' hgen
        injection hg with hg
        rw [← hg] at hb
        simp only [List.mem_cons] at hb
        rcases hb with hb | hb | hb | hb | hb
        · rw [hb] at hins
          simp only [keyHeadBlock, List.mem_cons] at hins
          rcases hins with h | h | h | h | h | h
          · rw [h]; simp
          · rw [h]; simp
          · rw [h]; simp
          · rw [h]; simp
          · rw [h]; cases hty : ci.type <;> simp [keyCmpTrue, hty]
          · simp at h
        · rw [hb] at hins
          simp only [keyInvBlock, List.mem_cons] at hins
          rcases hins with h | h
          · rw [h]; cases hty : ci.type <;> simp [keyCmpFalse, hty]
          · simp at h
        · rw [hb] at hins; simp at hins
        · rw [hb] at hins; simp at hins
        · exact ih (i + 1) (Label.nextKey i) bs' hgen b hb ins hins ty v p

/-! ## Sorting with an asymmetric comparator -/

lemma insertRow_head (lt : Row → Row → Bool) (x : Row) (l : List Row) :
    (insertRow lt x l).head? = some x ∨
      (insertRow lt x l).head? = l.head? := by
  cases l with
  | nil => left; rfl
  | cons y ys =>
    cases h : lt y x with
    | true => right; simp [insertRow, h]
    | false => left; simp [insertRow, h]

lemma insertRow_nonDecr (lt : Row → Row → Bool)
    (hasymm : ∀ a b, lt a b = true → lt b a = false) (x : Row) :
    ∀ l, nonDecr lt l → nonDecr lt (insertRow lt x l) := by
  intro l
  induction l with
  | nil => intro _; simp [insertRow, nonDecr]
  | cons y ys ih =>
    intro hch
    rw [nonDecr, List.chain'_cons'] at hch
    obtain ⟨hy, hys⟩ := hch
    cases h : lt y x with
    | false =>
      rw [nonDecr]
      have hins : insertRow lt x (y :: ys) = x :: y :: ys := by
        simp [insertRow, h]
      rw [hins, List.chain'_cons']
      refine ⟨?_, ?_⟩
      · intro z hz
        simp at hz
        subst hz
        exact h
      · rw [List.chain'_cons']
        exact ⟨hy, hys⟩
    | true =>
      rw [nonDecr]
      have hins : insertRow lt x (y :: ys) = y :: insertRow lt x ys := by
        simp [insertRow, h]
      rw [hins, List.chain'_cons']
      refine ⟨?_, ih hys⟩
      intro z hz
      rcases insertRow_head lt x ys with hh | hh
      · rw [hh] at hz
        simp at hz
        subst hz
        exact hasymm y x h
      · rw [hh] at hz
        exact hy z hz

lemma sortRows_nonDecr (lt : Row → Row → Bool)
    (hasymm : ∀ a b, lt a b = true → lt b a = false) :
    ∀ l, nonDecr lt (sortRows lt l) := by
  intro l
  induction l with
  | nil => simp [sortRows, nonDecr]
  | cons x xs ih =>
    rw [sortRows]
    exact insertRow_nonDecr lt hasymm x _ ih

lemma sortRows_sorted_eq (lt : Row → Row → Bool) :
    ∀ l, nonDecr lt l → sortRows lt l = l := by
  intro l
  induction l with
  | nil => intro _; rfl
  | cons x xs ih =>
    intro h
    rw [nonDecr, List.chain'_cons'] at h
    obtain ⟨hx, hxs⟩ := h
    rw [sortRows, ih hxs]
    cases xs with
    | nil => rfl
    | cons y ys =>
      have hyx : lt y x = false := hx y (by simp)
      simp [insertRow, hyx]

/-! ## Engine symbol table lemmas -/

lemma ingestAll_mem :
    ∀ (units : List (List String)) (table table' : List String),
      ingestAll table units = some table' →
      ∀ n, n ∈ table' → n ∈ table ∨ ∃ u ∈ units, n ∈ u := by
  intro units
  induction units with
  | nil =>
    intro t t' h n hn
    simp only [ingestAll] at h
    injection h with h
    rw [h]
    exact Or.inl hn
  | cons u us ih =>
    intro t t' h n hn
    simp only [ingestAll] at h
    cases ha : addModule t u with
    | none => rw [ha] at h; cases h
    | some t1 =>
      rw [ha] at h
      rcases ih t1 t' h n hn with h1 | h1
      · unfold addModule at ha
        split at ha
        · cases ha
        · injection ha with ha
          rw [← ha] at h1
          rcases List.mem_append.mp h1 with h2 | h2
          · exact Or.inl h2
          · exact Or.inr ⟨u, by simp, h2⟩
      · obtain ⟨v, hv, hnv⟩ := h1
        exact Or.inr ⟨v, by simp [hv], hnv⟩

/-- Looking up a name that was never ingested and is not host-exported
fails with the lookup error. -/
lemma lookup_unregistered {units : List (List String)}
    {table hostSyms : List String} {name : String}
    (hing : ingestAll [] units = some table)
    (hnotin : ∀ u ∈ units, name ∉ u) (hhost : name ∉ hostSyms) :
    lookup table hostSyms name =
      Except.error ("JIT lookup failed for symbol " ++ name) := by
  have htab : name ∉ table := by
    intro hmem
    rcases ingestAll_mem units [] table hing name hmem with h | ⟨u, hu, hnu⟩
    · simp at h
    · exact hnotin u hu hnu
  unfold lookup
  rw [if_neg htab, if_neg hhost]

/-! ## Injectivity of the comparator naming scheme -/

lemma natDigitsAux_irrel :
    ∀ (f1 f2 n : Nat), n < f1 → n < f2 →
      natDigitsAux f1 n = natDigitsAux f2 n := by
  intro f1
  induction f1 with
  | zero => intro f2 n h1 _; omega
  | succ g ih =>
    intro f2 n h1 h2
    cases f2 with
    | zero => omega
    | succ h =>
      by_cases hn : n < 10
      · simp [natDigitsAux, hn]
      · simp only [natDigitsAux, if_neg hn]
        have hd : n / 10 < n := Nat.div_lt_self (by omega) (by omega)
        rw [ih h (n / 10) (by omega) (by omega)]

lemma natDigitsAux_succ (fuel n : Nat) :
    natDigitsAux (fuel + 1) n = if n < 10 then [digitChar n]
      else natDigitsAux fuel (n / 10) ++ [digitChar (n % 10)] := rfl

lemma natDigits_eq (n : Nat) :
    natDigits n = if n < 10 then [digitChar n]
      else natDigits (n / 10) ++ [digitChar (n % 10)] := by
  have h1 : natDigits n = if n < 10 then [digitChar n]
      else natDigitsAux n (n / 10) ++ [digitChar (n % 10)] :=
    natDigitsAux_succ n n
  rw [h1]
  by_cases h : n < 10
  · rw [if_pos h, if_pos h]
  · rw [if_neg h, if_neg h]
    have hd : n / 10 < n := Nat.div_lt_self (by omega) (by omega)
    rw [natDigitsAux_irrel n (n / 10 + 1) (n / 10) (by omega) (by omega)]
    rfl

lemma digitVal_digitChar {d : Nat} (h : d < 10) :
    digitVal (digitChar d) = d := by
  interval_cases d <;> rfl

lemma digitChar_range {d : Nat} (h : d < 10) :
    48 ≤ (digitChar d).toNat ∧ (digitChar d).toNat ≤ 57 := by
  interval_cases d <;> decide

lemma natDigits_chars :
    ∀ n, ∀ c ∈ natDigits n, 48 ≤ c.toNat ∧ c.toNat ≤ 57 := by
  intro n
  induction n using Nat.strong_induction_on with
  | _ n ih =>
    intro c hc
    rw [natDigits_eq] at hc
    by_cases h : n < 10
    · rw [if_pos h] at hc
      simp at hc
      rw [hc]
      exact digitChar_range h
    · rw [if_neg h] at hc
      rcases List.mem_append.mp hc with h1 | h1
      · exact ih (n / 10) (Nat.div_lt_self (by omega) (by omega)) c h1
      · simp at h1
        rw [h1]
        exact digitChar_range (Nat.mod_lt n (by omega))

lemma natDigits_ne_nil (n : Nat) : natDigits n ≠ [] := by
  rw [natDigits_eq]
  split <;> simp

lemma listVal_append_digit (l : List Char) (c : Char) :
    listVal (l ++ [c]) = 10 * listVal l + digitVal c := by
  simp [listVal, List.foldl_append]

lemma listVal_natDigits : ∀ n, listVal (natDigits n) = n := by
  intro n
  induction n using Nat.strong_induction_on with
  | _ n ih =>
    rw [natDigits_eq]
    by_cases h : n < 10
    · rw [if_pos h]
      simp [listVal, digitVal_digitChar h]
    · rw [if_neg h, listVal_append_digit]
      rw [ih (n / 10) (Nat.div_lt_self (by omega) (by omega))]
      rw [digitVal_digitChar (Nat.mod_lt n (by omega))]
      omega

lemma natDigits_inj {m n : Nat} (h : natDigits m = natDigits n) : m = n := by
  have hm := listVal_natDigits m
  rw [h, listVal_natDigits] at hm
  exact hm.symm

lemma intRepr_data (i : Int) :
    (intRepr i).data =
      if i < 0 then '-' :: natDigits (-i).toNat else natDigits i.toNat := by
  unfold intRepr
  split
  · rw [String.data_append]
    rfl
  · rfl

lemma intRepr_chars (i : Int) :
    ∀ c ∈ (intRepr i).data, (48 ≤ c.toNat ∧ c.toNat ≤ 57) ∨ c = '-' := by
  intro c hc
  rw [intRepr_data] at hc
  split at hc
  · rcases List.mem_cons.mp hc with h | h
    · right; rw [h]
    · left; exact natDigits_chars _ c h
  · left; exact natDigits_chars _ c hc

lemma intRepr_inj {i j : Int} (h : intRepr i = intRepr j) : i = j := by
  have hd : (intRepr i).data = (intRepr j).data := by rw [h]
  rw [intRepr_data, intRepr_data] at hd
  by_cases hi : i < 0 <;> by_cases hj : j < 0
  · rw [if_pos hi, if_pos hj] at hd
    injection hd with _ hd
    have := natDigits_inj hd
    omega
  · rw [if_pos hi, if_neg hj] at hd
    exfalso
    cases hnd : natDigits j.toNat with
    | nil => exact natDigits_ne_nil _ hnd
    | cons c cs =>
      rw [hnd] at hd
      injection hd with h1 _
      have hr := natDigits_chars j.toNat c (by rw [hnd]; simp)
      rw [← h1] at hr
      exact absurd hr (by decide)
  · rw [if_neg hi, if_pos hj] at hd
    exfalso
    cases hnd : natDigits i.toNat with
    | nil => exact natDigits_ne_nil _ hnd
    | cons c cs =>
      rw [hnd] at hd
      injection hd with h1 _
      have hr := natDigits_chars i.toNat c (by rw [hnd]; simp)
      rw [h1] at hr
      exact absurd hr (by decide)
  · rw [if_neg hi, if_neg hj] at hd
    have := natDigits_inj hd
    omega

lemma encodeKey_data (k : SortKey) : (encodeKey k).data = keyChars k := by
  unfold encodeKey keyChars dirChar
  rw [String.data_append, String.data_append]
  cases k.isAscending <;> rfl

lemma funcName_data :
    ∀ (keys : List SortKey) (s : String),
      (keys.foldl (fun s k => s ++ encodeKey k) s).data =
        s.data ++ (keys.map keyChars).flatten := by
  intro keys
  induction keys with
  | nil => intro s; simp
  | cons k rest ih =>
    intro s
    simp only [List.foldl_cons, List.map_cons, List.flatten_cons]
    rw [ih (s ++ encodeKey k), String.data_append, encodeKey_data,
      List.append_assoc]

lemma dirChar_cases (k : SortKey) : dirChar k = 'a' ∨ dirChar k = 'd' := by
  unfold dirChar
  cases k.isAscending <;> simp

lemma segCancel :
    ∀ (s1 s2 r1 r2 : List Char) (d1 d2 : Char),
      (∀ c ∈ s1, (48 ≤ c.toNat ∧ c.toNat ≤ 57) ∨ c = '-') →
      (∀ c ∈ s2, (48 ≤ c.toNat ∧ c.toNat ≤ 57) ∨ c = '-') →
      (d1 = 'a' ∨ d1 = 'd') → (d2 = 'a' ∨ d2 = 'd') →
      s1 ++ d1 :: r1 = s2 ++ d2 :: r2 →
      s1 = s2 ∧ d1 = d2 ∧ r1 = r2 := by
  intro s1
  induction s1 with
  | nil =>
    intro s2 r1 r2 d1 d2 h1 h2 hd1 hd2 heq
    cases s2 with
    | nil =>
      simp only [List.nil_append] at heq
      injection heq with e1 e2
      exact ⟨rfl, e1, e2⟩
    | cons c cs =>
      exfalso
      simp only [List.nil_append, List.cons_append] at heq
      injection heq with e1 _
      have hc := h2 c (by simp)
      rw [← e1] at hc
      rcases hd1 with h4 | h4 <;> rw [h4] at hc <;> exact absurd hc (by decide)
  | cons c1 cs1 ih =>
    intro s2 r1 r2 d1 d2 h1 h2 hd1 hd2 heq
    cases s2 with
    | nil =>
      exfalso
      simp only [List.nil_append, List.cons_append] at heq
      injection heq with e1 _
      have hc := h1 c1 (by simp)
      rw [e1] at hc
      rcases hd2 with h4 | h4 <;> rw [h4] at hc <;> exact absurd hc (by decide)
    | cons c2 cs2 =>
      simp only [List.cons_append] at heq
      injection heq with e1 e2
      obtain ⟨hs, hd, hr⟩ := ih cs2 r1 r2 d1 d2
        (fun c hc => h1 c (by simp [hc])) (fun c hc => h2 c (by simp [hc]))
        hd1 hd2 e2
      exact ⟨by rw [e1, hs], hd, hr⟩

lemma keyCharsJoin_inj :
    ∀ (ks1 ks2 : List SortKey),
      (ks1.map keyChars).flatten = (ks2.map keyChars).flatten → ks1 = ks2 := by
  intro ks1
  induction ks1 with
  | nil =>
    intro ks2 h
    cases ks2 with
    | nil => rfl
    | cons k ks => simp [keyChars] at h
  | cons k1 t1 ih =>
    intro ks2 h
    cases ks2 with
    | nil => simp [keyChars] at h
    | cons k2 t2 =>
      simp only [List.map_cons, List.flatten_cons] at h
      unfold keyChars at h
      simp only [List.cons_append, List.append_assoc,
        List.singleton_append] at h
      injection h with _ h
      obtain ⟨hs, hd, hr⟩ := segCancel _ _ _ _ _ _
        (intRepr_chars k1.columnIndex) (intRepr_chars k2.columnIndex)
        (dirChar_cases k1) (dirChar_cases k2) h
      have hidx : k1.columnIndex = k2.columnIndex :=
        intRepr_inj (String.ext hs)
      have hasc : k1.isAscending = k2.isAscending := by
        unfold dirChar at hd
        cases ha1 : k1.isAscending <;> cases ha2 : k2.isAscending <;>
          rw [ha1, ha2] at hd <;> simp at hd ⊢
      have hk : k1 = k2 := by
        cases k1
        cases k2
        simp at hidx hasc
        simp [hidx, hasc]
      rw [hk, ih t2 hr]

lemma funcName_inj : Function.Injective funcName := by
  intro ks1 ks2 h
  have hd : (funcName ks1).data = (funcName ks2).data := by rw [h]
  unfold funcName at hd
  rw [funcName_data ks1 "cmp", funcName_data ks2 "cmp"] at hd
  simp at hd
  exact keyCharsJoin_inj ks1 ks2 hd

/-! ## Claim theorems -/

/-- Claim C1: for every schema and non-empty key list with valid column
indices (all `JITType` values are supported), the generated `compare`
evaluates the keys in order, loading both rows' fields at the column's byte
offset with the column's type, returning true as soon as rowA strictly
precedes rowB on a key (A<B ascending integer, A>B descending integer,
ordered A<B / A>B for float), returning false as soon as the mirrored test
holds, falling through on ties, and returning false when every key ties —
i.e. running the generated comparator computes exactly `specCompare`, the
cascade written from the spec's words. -/
theorem C1_compare_matches_spec_cascade (schema : List ColumnInfo)
    (keys : List SortKey) (a b : Row) (_hne : keys ≠ [])
    (hv : keysValid schema keys = true) :
    ∃ f, createBoolCompareModule schema keys = some f ∧
      runCompare f a b (2 * keys.length + 1) =
        some (specCompare schema keys a b) := by
  obtain ⟨f, hf⟩ := keysValid_create hv
  exact ⟨f, hf, create_runCompare hf a b⟩

/-- Witness for C1 at the demo schema, keys and two concrete rows. -/
theorem C1_witness :
    demoKeys ≠ [] ∧ keysValid demoSchema demoKeys = true ∧
    ∃ f, createBoolCompareModule demoSchema demoKeys = some f ∧
      runCompare f (rowOf 1 (F64.val 9)) (rowOf 2 (F64.val 5))
          (2 * demoKeys.length + 1) =
        some (specCompare demoSchema demoKeys (rowOf 1 (F64.val 9))
          (rowOf 2 (F64.val 5))) :=
  ⟨by decide, by decide,
    C1_compare_matches_spec_cascade demoSchema demoKeys
      (rowOf 1 (F64.val 9)) (rowOf 2 (F64.val 5)) (by decide) (by decide)⟩

/-- Claim C2: for every schema, key sequence with valid indices (witnessed
by the generator succeeding) and rows a, b: `compare(a,b)` and
`compare(b,a)` are never both true, and `compare(a,a)` is always false. -/
theorem C2_compare_asymm_irrefl (schema : List ColumnInfo)
    (keys : List SortKey) (f : IRFun)
    (hf : createBoolCompareModule schema keys = some f) (a b : Row) :
    ¬(runCompare f a b (2 * keys.length + 1) = some true ∧
      runCompare f b a (2 * keys.length + 1) = some true) ∧
    runCompare f a a (2 * keys.length + 1) = some false := by
  constructor
  · rintro ⟨h1, h2⟩
    rw [create_runCompare hf a b] at h1
    rw [create_runCompare hf b a] at h2
    injection h1 with h1
    injection h2 with h2
    have hfalse := specCompare_asymm schema keys a b h1
    rw [h2] at hfalse
    cases hfalse
  · rw [create_runCompare hf a a, specCompare_irrefl]

/-- Witness for C2 at the demo comparator and two concrete rows. -/
theorem C2_witness :
    ¬(runCompare demoF (rowOf 1 (F64.val 9)) (rowOf 1 (F64.val 5))
        (2 * demoKeys.length + 1) = some true ∧
      runCompare demoF (rowOf 1 (F64.val 5)) (rowOf 1 (F64.val 9))
        (2 * demoKeys.length + 1) = some true) ∧
    runCompare demoF (rowOf 1 (F64.val 9)) (rowOf 1 (F64.val 9))
      (2 * demoKeys.length + 1) = some false :=
  C2_compare_asymm_irrefl demoSchema demoKeys demoF (by decide)
    (rowOf 1 (F64.val 9)) (rowOf 1 (F64.val 5))

/-- Claim C3: a NaN on either side of a float (Double) key, ascending or
descending, makes both the precedes and the follows comparison of that key
false, so the key is treated as tied and evaluation falls through to the
next keys: the comparator generated for `k :: ks` agrees with the one
generated for `ks` on such rows. -/
theorem C3_nan_key_ties_falls_through (schema : List ColumnInfo)
    (k : SortKey) (ks : List SortKey) (ci : ColumnInfo) (a b : Row)
    (hsg : schemaGet schema k.columnIndex = some ci)
    (hty : ci.type = JITType.DOUBLE)
    (hnan : a.f64 ci.offset = F64.nan ∨ b.f64 ci.offset = F64.nan)
    (f g : IRFun)
    (hf : createBoolCompareModule schema (k :: ks) = some f)
    (hg : createBoolCompareModule schema ks = some g) :
    specKeyPrecedes ci k a b = false ∧ specKeyPrecedes ci k b a = false ∧
    runCompare f a b (2 * (k :: ks).length + 1) =
      runCompare g a b (2 * ks.length + 1) := by
  obtain ⟨h1, h2⟩ := specKeyPrecedes_nan hty hnan
  refine ⟨h1, h2, ?_⟩
  rw [create_runCompare hf a b, create_runCompare hg a b,
    specCompare_nan_fallthrough ks hsg hty hnan]

/-- Witness for C3: a NaN score against a real score under the descending
score key. -/
theorem C3_witness :
    specKeyPrecedes ⟨JITType.DOUBLE, 4, "score"⟩ ⟨1, false⟩
      (rowOf 1 F64.nan) (rowOf 2 (F64.val 5)) = false ∧
    specKeyPrecedes ⟨JITType.DOUBLE, 4, "score"⟩ ⟨1, false⟩
      (rowOf 2 (F64.val 5)) (rowOf 1 F64.nan) = false ∧
    runCompare c3f (rowOf 1 F64.nan) (rowOf 2 (F64.val 5))
        (2 * c3keys.length + 1) =
      runCompare c3g (rowOf 1 F64.nan) (rowOf 2 (F64.val 5)) (2 * 0 + 1) := by
  have h := C3_nan_key_ties_falls_through demoSchema ⟨1, false⟩ []
    ⟨JITType.DOUBLE, 4, "score"⟩ (rowOf 1 F64.nan) (rowOf 2 (F64.val 5))
    (by decide) rfl (Or.inl (by decide)) c3f c3g (by decide) (by decide)
  exact h

/-- Claim C4: the generated comparator's name is exactly `cmp` followed,
per key in order, by an underscore, the decimal column index and `a`/`d`
for ascending/descending (for the demo keys, `cmp_0a_1d`), and the scheme
is injective on key sequences. -/
theorem C4_naming_scheme :
    (∀ (schema : List ColumnInfo) (keys : List SortKey) (f : IRFun),
      createBoolCompareModule schema keys = some f →
      f.name = funcName keys) ∧
    (∀ keys : List SortKey, (funcName keys).data =
      "cmp".data ++ (keys.map keyChars).flatten) ∧
    funcName demoKeys = "cmp_0a_1d" ∧
    Function.Injective funcName := by
  refine ⟨?_, ?_, by decide, funcName_inj⟩
  · intro schema keys f hf
    unfold createBoolCompareModule at hf
    cases hg : genBlocks schema keys 0 Label.entry with
    | none => rw [hg] at hf; cases hf
    | some bs =>
      rw [hg] at hf
      injection hf with hf
      rw [← hf]
  · intro keys
    unfold funcName
    rw [funcName_data keys "cmp"]

/-- Witness for C4: the demo comparator carries the encoded name, and
injectivity applied at the demo keys. -/
theorem C4_witness :
    demoF.name = funcName demoKeys ∧ demoKeys = demoKeys :=
  ⟨C4_naming_scheme.1 demoSchema demoKeys demoF (by decide),
    C4_naming_scheme.2.2.2 (rfl : funcName demoKeys = funcName demoKeys)⟩

/-- Claim C5 (code bug): the synthesizer has no validation.  On a key whose
column index is out of range it reaches the unchecked
`schema[key.columnIndex]` access — undefined behaviour of
`std::vector::operator[]`, modelled as `none` — and this happens only after
the function name (and, in the C++, the module and function) have already
been created; there is no rejection path in `createBoolCompareModule`. -/
theorem C5_no_validation :
    schemaGet c5schema 1 = none ∧
    createBoolCompareModule c5schema c5keys = none ∧
    funcName c5keys = "cmp_1a" := by
  refine ⟨by decide, by decide, by decide⟩

/-- Claim C6: sorting any row sequence with the generated comparator yields
a sequence non-decreasing under the key order (no element strictly precedes
its predecessor), and sorting an already-sorted sequence leaves it
unchanged.  The sorting routine (`std::sort` in the demo) is external and
is modelled from the spec as a comparison sort (`sortRows`). -/
theorem C6_sort_nonDecreasing_idempotent (schema : List ColumnInfo)
    (keys : List SortKey) (f : IRFun)
    (hf : createBoolCompareModule schema keys = some f) :
    (∀ a b, runCompare f a b (2 * keys.length + 1) =
      some (specCompare schema keys a b)) ∧
    (∀ l, nonDecr (specCompare schema keys)
      (sortRows (specCompare schema keys) l)) ∧
    (∀ l, nonDecr (specCompare schema keys) l →
      sortRows (specCompare schema keys) l = l) := by
  refine ⟨fun a b => create_runCompare hf a b, ?_, sortRows_sorted_eq _⟩
  exact sortRows_nonDecr _ (fun a b h => specCompare_asymm schema keys a b h)

/-- Witness for C6 at the demo comparator: concrete comparator run, and
idempotence at a concrete sorted list. -/
theorem C6_witness :
    runCompare demoF (rowOf 1 (F64.val 9)) (rowOf 1 (F64.val 5))
        (2 * demoKeys.length + 1) =
      some (specCompare demoSchema demoKeys (rowOf 1 (F64.val 9))
        (rowOf 1 (F64.val 5))) ∧
    sortRows (specCompare demoSchema demoKeys) [] = [] :=
  ⟨(C6_sort_nonDecreasing_idempotent demoSchema demoKeys demoF (by decide)).1
      (rowOf 1 (F64.val 9)) (rowOf 1 (F64.val 5)),
    (C6_sort_nonDecreasing_idempotent demoSchema demoKeys demoF
      (by decide)).2.2 [] (List.chain'_nil)⟩

/-- Claim C7 counterexample: the generated Int32 two-argument sum function
is a single i32 add; applied to 10 and 32 it returns 42, not 22 as the
claim states. -/
theorem C7_counterexample : sum_int 10 32 = 42 ∧ ¬sum_int 10 32 = 22 := by
  refine ⟨by decide, by decide⟩

/-- Claim C7 as amended: the generated Int32 two-argument sum function
applied to the inputs 10 and 32 returns 42. -/
theorem C7_sum_int_returns_42 : sum_int 10 32 = 42 := by decide

/-- Claim C8: looking up a name that was never added through module
ingestion and is not a host-process exported symbol fails with the lookup
error rather than resolving. -/
theorem C8_lookup_unregistered_fails (units : List (List String))
    (table hostSyms : List String) (name : String)
    (hing : ingestAll [] units = some table)
    (hnotin : ∀ u ∈ units, name ∉ u) (hhost : name ∉ hostSyms) :
    lookup table hostSyms name =
      Except.error ("JIT lookup failed for symbol " ++ name) :=
  lookup_unregistered hing hnotin hhost

/-- Witness for C8: one ingested unit defining `cmp_0a_1d`, a host exposing
`memcpy`, and a lookup of the never-registered `sum_int`. -/
theorem C8_witness :
    lookup ["cmp_0a_1d"] ["memcpy"] "sum_int" =
      Except.error ("JIT lookup failed for symbol " ++ "sum_int") :=
  C8_lookup_unregistered_fails [["cmp_0a_1d"]] ["cmp_0a_1d"] ["memcpy"]
    "sum_int" (by decide) (by decide) (by decide)

/-- Claim C9: the generated comparator only loads from the two rows: its
blocks contain no store instruction, and running it returns both row
buffers exactly as passed in. -/
theorem C9_no_store_rows_unchanged (schema : List ColumnInfo)
    (keys : List SortKey) (f : IRFun)
    (hf : createBoolCompareModule schema keys = some f) :
    (∀ blk ∈ f.blocks, ∀ ins ∈ blk.insts, ∀ ty v p,
      ins ≠ Inst.store ty v p) ∧
    (∀ a b, runFunction f a b (2 * keys.length + 1) =
      some (specCompare schema keys a b, ⟨a, b⟩)) := by
  constructor
  · intro blk hblk ins hins ty v p
    unfold createBoolCompareModule at hf
    cases hg : genBlocks schema keys 0 Label.entry with
    | none => rw [hg] at hf; cases hf
    | some bs =>
      rw [hg] at hf
      injection hf with hf
      rw [← hf] at hblk
      exact genBlocks_no_store schema keys 0 Label.entry bs hg blk hblk ins
        hins ty v p
  · intro a b
    exact create_run hf a b

/-- Witness for C9: the demo comparator run on two concrete rows returns
the rows unchanged. -/
theorem C9_witness :
    runFunction demoF (rowOf 1 (F64.val 9)) (rowOf 2 (F64.val 5))
        (2 * demoKeys.length + 1) =
      some (specCompare demoSchema demoKeys (rowOf 1 (F64.val 9))
          (rowOf 2 (F64.val 5)),
        ⟨rowOf 1 (F64.val 9), rowOf 2 (F64.val 5)⟩) :=
  (C9_no_store_rows_unchanged demoSchema demoKeys demoF (by decide)).2
    (rowOf 1 (F64.val 9)) (rowOf 2 (F64.val 5))

/-- Claim C10: for the empty key list the synthesizer still produces a
function, named exactly `cmp`, that returns false on every pair of rows. -/
theorem C10_empty_keys_cmp_false (schema : List ColumnInfo) (a b : Row) :
    ∃ f, createBoolCompareModule schema [] = some f ∧ f.name = "cmp" ∧
      runCompare f a b 1 = some false := by
  exact ⟨⟨"cmp", [⟨Label.entry, [], Term.retBool false⟩]⟩, rfl, rfl, rfl⟩

end NanoJitDemo
